import Mathlib

/-!
Shallow embedding of the voice-agent repository's session-oriented audio
streaming and turn-taking pipeline:

* the per-connection WebSocket session state machine and the
  `user_audio_start` / `user_audio_chunk` / `user_audio_end` handlers
  (server, `llm/index.ts`);
* the TTS chunking algorithm `createOptimalTTSChunks` / `splitLongChunk`
  (server, `tts/chunk-text.ts`);
* the client playback queue `usePlayer` (`queueAudio`, `processNextAudio`,
  `stopPlayback`).

Texts are modelled as `List Char` (one entry per JS string element); binary
buffers as `List Nat` (bytes); the external collaborators (base64 decode,
transcription, chat completion, speech synthesis) as an oracle record, since
the repository only orchestrates calls to them.  Handlers return, besides the
new state, the ordered list of observable actions they perform (provider
calls, `ws.send` messages), so that sequencing claims can be stated about the
action trace.
-/

set_option maxRecDepth 8192

namespace VoiceAgent

/-! ## Characters and whitespace (JS `trim`, `\s`, `[A-Z]`) -/

/-- Whitespace as used by the source texts (JS `\s` / `String.trim`). -/
def isWS (c : Char) : Bool :=
  c == ' ' || c == '\t' || c == '\n' || c == '\r'

/-- Drop leading whitespace. -/
def trimLead (l : List Char) : List Char := l.dropWhile isWS

/-- Drop trailing whitespace. -/
def trimTrail (l : List Char) : List Char := (l.reverse.dropWhile isWS).reverse

/-- JS `String.prototype.trim`. -/
def jsTrim (l : List Char) : List Char := trimTrail (trimLead l)

/-- The non-whitespace characters of a text, in order. -/
def nws (l : List Char) : List Char := l.filter (fun c => !(isWS c))

/-- Sentence terminators of the chunker's split regex: `[.!?;]`. -/
def isTerm (c : Char) : Bool :=
  c == '.' || c == '!' || c == '?' || c == ';'

/-- ASCII capital letter, the `[A-Z]` lookahead of the split regex. -/
def isUpperAZ (c : Char) : Bool :=
  'A' ≤ c && c ≤ 'Z'

/-! ## Server session state machine (`wss.on('connection')` closure state) -/

/-- The per-connection mutable state of the server handler:
`audioChunks`, `inProgress`, `currentSessionId`. -/
structure SessState where
  audioChunks : List String
  inProgress : Bool
  currentSessionId : Option String
  deriving Repr, DecidableEq

/-- State of a fresh connection. -/
def initSess : SessState := ⟨[], false, none⟩

/-- Handler of `{type: "user_audio_start"}`.  `fresh` is the uuid that
`uuid()` would mint.  If `inProgress` the message is ignored; otherwise a new
session id is installed and the chunk buffer cleared. -/
def handleStart (fresh : String) (s : SessState) : SessState :=
  if s.inProgress then s
  else { audioChunks := [], inProgress := false, currentSessionId := some fresh }

/-- Handler of `{type: "user_audio_chunk", chunk}`.  Ignored when no session
is active; the chunk is appended only when the `chunk` field is present and
non-empty (JS truthiness of `data.chunk`). -/
def handleChunk (payload : Option String) (s : SessState) : SessState :=
  match s.currentSessionId with
  | none => s
  | some _ =>
    match payload with
    | none => s
    | some c => if c = "" then s else { s with audioChunks := s.audioChunks ++ [c] }

/-! ## Turn pipeline oracle and observable actions -/

/-- The external collaborators consumed by one `user_audio_end` turn:
base64 decoding of a chunk to bytes, the transcription call, the streaming
chat completion (as the list of streamed deltas), and one synthesis call per
TTS segment.  Failure of a provider call is an `Except.error` carrying its
message. -/
structure TurnOracle where
  dec : String → List Nat
  transcribeO : Except String (List Char)
  chatO : Except String (List (List Char))
  ttsO : List Char → Except String (List Nat)

/-- Observable actions of the `user_audio_end` handler, in program order. -/
inductive TurnEv where
  | wroteFile (buffer : List Nat)
  | transcribeCall
  | chatCall (transcript : List Char)
  | ttsCall (seg : List Char)
  | aiAudio (audio : List Nat) (done : Bool)
  | errMsg (m : String)
  deriving Repr, DecidableEq

/-- The `completeBuffer` computed by the end handler:
`Buffer.concat(audioChunks.map(c => Buffer.from(c, 'base64')))`. -/
def completeBufferOf (o : TurnOracle) (s : SessState) : List Nat :=
  (s.audioChunks.map o.dec).flatten

/-! ## TTS chunker (`createOptimalTTSChunks` / `splitLongChunk`) -/

/-- After dropping a whitespace run, is the next character a capital?  This is
the `(?=[A-Z])` lookahead past the `\s+` separator. -/
def capAfterWS (l : List Char) : Bool :=
  match l.dropWhile isWS with
  | [] => false
  | d :: _ => isUpperAZ d

/-- Worker of the sentence split
`text.split(/(?<=[.!?;])\s+(?=[A-Z])/g)`: scan `rest` keeping the reversed
current piece in `cur`; `prevTerm` records whether the previously consumed
character was a sentence terminator.  A separator is a whitespace run that is
immediately preceded by a terminator and immediately followed by a capital
letter; it is consumed and a piece boundary emitted.  `fuel` bounds the
recursion; `fuel > rest.length` is always sufficient, and on exhaustion the
remaining input is returned as the final piece. -/
def sentGo : Nat → List Char → Bool → List Char → List (List Char)
  | 0, cur, _, rest => [cur.reverse ++ rest]
  | _ + 1, cur, _, [] => [cur.reverse]
  | fuel + 1, cur, prevTerm, c :: cs =>
    if prevTerm && isWS c && capAfterWS (c :: cs) then
      cur.reverse :: sentGo fuel [] false ((c :: cs).dropWhile isWS)
    else
      sentGo fuel (c :: cur) (isTerm c) cs

/-- `text.split(/(?<=[.!?;])\s+(?=[A-Z])/g)`. -/
def splitSentences (t : List Char) : List (List Char) :=
  sentGo (t.length + 1) [] false t

/-- Does `needle` occur in `s` starting at index `i`? -/
def occursAt (s needle : List Char) (i : Nat) : Bool :=
  needle.isPrefixOf (s.drop i)

/-- JS `s.lastIndexOf(needle, f)`: the largest start index `≤ f` of an
occurrence of `needle` in `s` (`none` for JS's `-1`).  The occurrence may
extend past index `f`. -/
def lastIdxFrom (s needle : List Char) (f : Nat) : Option Nat :=
  ((List.range (f + 1)).filter (occursAt s needle)).getLast?

/-- The `breakPoints` array of `splitLongChunk` followed by
`.find(bp => bp > maxLength * 0.5)`: the first candidate needle, in priority
order `", "`, `" and "`, `" or "`, `" but "`, `" - "`, `" "`, whose last
occurrence at index `≤ max` lies strictly past `max / 2`. -/
def findBreakPoint (r : List Char) (max : Nat) : Option Nat :=
  let cands := [lastIdxFrom r (", ".toList) max,
                lastIdxFrom r (" and ".toList) max,
                lastIdxFrom r (" or ".toList) max,
                lastIdxFrom r (" but ".toList) max,
                lastIdxFrom r (" - ".toList) max,
                lastIdxFrom r [' '] max]
  cands.findSome? (fun o =>
    match o with
    | some bp => if max < 2 * bp then some bp else none
    | none => none)

/-- Fueled body of `splitLongChunk`'s `while (remaining.length > maxLength)`
loop.  Each iteration cuts either after the found break point (`substring(0,
breakPoint + 1).trim()`) or, failing that, hard at `maxLength`; the final
non-empty remainder is pushed untrimmed.  `fuel > r.length` is sufficient
whenever `1 ≤ max`. -/
def splitLongChunkF (max : Nat) : Nat → List Char → List (List Char)
  | 0, r => if r.isEmpty then [] else [r]
  | fuel + 1, r =>
    if r.length ≤ max then (if r.isEmpty then [] else [r])
    else
      match findBreakPoint r max with
      | some bp =>
        if 0 < bp then
          jsTrim (r.take (bp + 1)) :: splitLongChunkF max fuel (jsTrim (r.drop (bp + 1)))
        else
          jsTrim (r.take max) :: splitLongChunkF max fuel (jsTrim (r.drop max))
      | none =>
        jsTrim (r.take max) :: splitLongChunkF max fuel (jsTrim (r.drop max))

/-- `splitLongChunk(text, maxLength)`. -/
def splitLongChunk (r : List Char) (max : Nat) : List (List Char) :=
  splitLongChunkF max (r.length + 1) r

/-- `currentChunk ? currentChunk + " " + sentence : sentence`. -/
def glue (cur s : List Char) : List Char :=
  if cur.isEmpty then s else cur ++ ' ' :: s

/-- The greedy sentence-accumulation loop of `createOptimalTTSChunks`: seal
the running chunk when adding the next sentence would overflow `max` and the
running chunk is non-empty; at the last sentence push the running chunk. -/
def greedyGo (max : Nat) (cur : List Char) : List (List Char) → List (List Char)
  | [] => []
  | [s] =>
    let pot := glue cur s
    if max < pot.length && !cur.isEmpty then [jsTrim cur, jsTrim s]
    else [jsTrim pot]
  | s :: ss =>
    let pot := glue cur s
    if max < pot.length && !cur.isEmpty then jsTrim cur :: greedyGo max s ss
    else greedyGo max pot ss

/-- The `sentences` array of `createOptimalTTSChunks`: split on sentence
boundaries, trim each piece, drop the empty ones. -/
def sentencesOf (text : List Char) : List (List Char) :=
  ((splitSentences text).map jsTrim).filter (fun s => !s.isEmpty)

/-- `createOptimalTTSChunks(text, maxChunkLength = 50)`. -/
def createOptimalTTSChunks (text : List Char) (max : Nat := 50) : List (List Char) :=
  if (jsTrim text).isEmpty then []
  else
    let sentences := sentencesOf text
    if sentences.isEmpty then [jsTrim text]
    else
      let chunks := greedyGo max [] sentences
      (chunks.filter (fun c => !c.isEmpty)).flatMap
        (fun c => if max < c.length then splitLongChunk c max else [c])

/-! ## The `user_audio_end` handler and its synthesis loop -/

/-- The TTS synthesis loop over the segments: for each segment, call the
synthesis collaborator, then send one `ai_audio` message whose `done` flag is
true exactly on the last segment.  A synthesis failure aborts the loop and is
returned as the pending exception (the caller's `catch` sends it). -/
def ttsLoop (o : TurnOracle) : List (List Char) → List TurnEv × Option String
  | [] => ([], none)
  | seg :: rest =>
    match o.ttsO seg with
    | .error e => ([.ttsCall seg], some e)
    | .ok a =>
      let (evs, r) := ttsLoop o rest
      (.ttsCall seg :: .aiAudio a rest.isEmpty :: evs, r)

/-- Handler of `{type: "user_audio_end"}`.  Returns the state after the
handler (including its `finally` block) together with the ordered observable
actions.  Guards in program order: no active session; already `inProgress`;
no buffered chunks; assembled buffer under 1000 bytes.  Then the pipeline:
write the temp file, transcribe, stream the chat completion into
`finalResponse`, chunk it, and run the synthesis loop; any failure is sent as
a structured `error` message; the `finally` block always clears the chunk
buffer, the `inProgress` flag and the session id. -/
def handleEnd (o : TurnOracle) (s : SessState) : SessState × List TurnEv :=
  match s.currentSessionId with
  | none => (s, [])
  | some _ =>
    if s.inProgress then (s, [])
    else if s.audioChunks.isEmpty then
      ({ audioChunks := s.audioChunks, inProgress := false, currentSessionId := none }, [])
    else
      let completeBuffer := completeBufferOf o s
      let evs :=
        if completeBuffer.length < 1000 then []
        else
          match o.transcribeO with
          | .error e => [.wroteFile completeBuffer, .transcribeCall, .errMsg e]
          | .ok transcript =>
            match o.chatO with
            | .error e => [.wroteFile completeBuffer, .transcribeCall, .chatCall transcript, .errMsg e]
            | .ok ds =>
              let finalResponse := ds.flatten
              let segs := createOptimalTTSChunks finalResponse 50
              let (tevs, r) := ttsLoop o segs
              .wroteFile completeBuffer :: .transcribeCall :: .chatCall transcript ::
                (tevs ++ (match r with | some e => [.errMsg e] | none => []))
      (⟨[], false, none⟩, evs)

/-! ## Client playback queue (`usePlayer`) -/

/-- The mutable refs of `usePlayer`: the base64 queue, the `isPlaying` flag
and the current `AudioBufferSourceNode` (represented by the chunk it plays).
`played` is a ghost trace of the chunks that started playing, in order. -/
structure PlayerState where
  audioQueue : List String
  isPlaying : Bool
  currentSource : Option String
  played : List String
  deriving Repr, DecidableEq

/-- Player state on mount. -/
def initPlayer : PlayerState := ⟨[], false, none, []⟩

/-- Playback signals surfaced through the `onPlaybackStart` /
`onPlaybackEnd` callbacks. -/
inductive PSig where
  | playbackStart
  | playbackEnd
  deriving Repr, DecidableEq

/-- Worker of `processNextAudio`, recursing over the queue: an empty queue
clears `isPlaying` and fires the playback-end signal; otherwise the head is
shifted and, if it decodes (`ok`), becomes the current source and is logged
as played; a decode failure is skipped and the next chunk tried. -/
def pnaGo (ok : String → Bool) (s : PlayerState) : List String → PlayerState × List PSig
  | [] => ({ s with audioQueue := [], isPlaying := false }, [PSig.playbackEnd])
  | c :: rest =>
    if ok c then
      ({ s with audioQueue := rest, currentSource := some c, played := s.played ++ [c] }, [])
    else
      pnaGo ok s rest

/-- `processNextAudio` as one event-loop settlement: follows the chain of
decode-failure retries until a chunk starts playing or the queue empties. -/
def processNextAudio (ok : String → Bool) (s : PlayerState) : PlayerState × List PSig :=
  pnaGo ok s s.audioQueue

/-- `queueAudio(base64)`: push onto the queue; if not currently playing, set
`isPlaying`, fire the playback-start signal and start `processNextAudio`. -/
def queueAudio (ok : String → Bool) (b : String) (s : PlayerState) : PlayerState × List PSig :=
  let s1 := { s with audioQueue := s.audioQueue ++ [b] }
  if s.isPlaying then (s1, [])
  else
    let (s2, sigs) := processNextAudio ok { s1 with isPlaying := true }
    (s2, PSig.playbackStart :: sigs)

/-- The `source.onended` callback: it unconditionally nulls
`currentSourceRef` and runs `processNextAudio()`.  The browser dispatches it
both on natural completion of the source and in response to
`source.stop()`. -/
def sourceEnded (ok : String → Bool) (s : PlayerState) : PlayerState × List PSig :=
  processNextAudio ok { s with currentSource := none }

/-- `stopPlayback()`: stop and drop the current source, clear the queue, and
fire the playback-end signal exactly when `isPlaying` was set. -/
def stopPlayback (s : PlayerState) : PlayerState × List PSig :=
  let s1 := { s with currentSource := none, audioQueue := [] }
  if s.isPlaying then ({ s1 with isPlaying := false }, [PSig.playbackEnd])
  else (s1, [])

/-- Events driving the playback queue from outside: a network arrival
(`queueAudio`) or the natural end of the current source. -/
inductive PEvent where
  | enq (b : String)
  | ended
  deriving Repr, DecidableEq

/-- One event step of the playback queue (ignoring the emitted signals). -/
def pstep (ok : String → Bool) (s : PlayerState) : PEvent → PlayerState
  | .enq b => (queueAudio ok b s).1
  | .ended => (sourceEnded ok s).1

/-- Run the playback queue from mount over a list of events. -/
def runP (ok : String → Bool) (evs : List PEvent) : PlayerState :=
  evs.foldl (pstep ok) initPlayer

/-- The chunks enqueued by an event list, in arrival order. -/
def enqueuedOf (evs : List PEvent) : List String :=
  evs.filterMap (fun e => match e with | .enq b => some b | .ended => none)

/-- The always-successful decode oracle. -/
def okAll : String → Bool := fun _ => true

/-! ## Whitespace and trim lemmas -/

lemma nws_append (a b : List Char) : nws (a ++ b) = nws a ++ nws b :=
  List.filter_append a b

lemma nws_dropWhileWS (l : List Char) : nws (l.dropWhile isWS) = nws l := by
  induction l with
  | nil => rfl
  | cons c cs ih =>
    rw [List.dropWhile_cons]
    by_cases h : isWS c = true
    · rw [if_pos h, ih]
      simp [nws, List.filter_cons, h]
    · rw [if_neg h]

lemma nws_reverse (l : List Char) : nws l.reverse = (nws l).reverse :=
  List.filter_reverse _ l

lemma nws_trimTrail (l : List Char) : nws (trimTrail l) = nws l := by
  rw [trimTrail, nws_reverse, nws_dropWhileWS, nws_reverse, List.reverse_reverse]

lemma nws_jsTrim (l : List Char) : nws (jsTrim l) = nws l := by
  rw [jsTrim, nws_trimTrail, trimLead, nws_dropWhileWS]

lemma jsTrim_nil_iff (l : List Char) : jsTrim l = [] ↔ nws l = [] := by
  constructor
  · intro h
    have := nws_jsTrim l
    rw [h] at this
    exact this.symm
  · intro h
    have hall : ∀ c ∈ l, isWS c = true := by
      intro c hc
      have := List.filter_eq_nil_iff.mp h c hc
      simpa using this
    have h1 : trimLead l = [] :=
      List.dropWhile_eq_nil_iff.mpr fun c hc => hall c hc
    rw [jsTrim, h1]
    rfl

lemma lengthDropWhileLe (p : Char → Bool) (l : List Char) :
    (l.dropWhile p).length ≤ l.length := by
  induction l with
  | nil => simp
  | cons c cs ih =>
    rw [List.dropWhile_cons]
    by_cases h : p c = true
    · rw [if_pos h]; simp; omega
    · rw [if_neg h]

lemma trimTrail_length_le (l : List Char) : (trimTrail l).length ≤ l.length := by
  rw [trimTrail, List.length_reverse]
  calc (l.reverse.dropWhile isWS).length ≤ l.reverse.length := lengthDropWhileLe _ _
    _ = l.length := List.length_reverse l

lemma jsTrim_length_le (l : List Char) : (jsTrim l).length ≤ l.length := by
  calc (jsTrim l).length ≤ (trimLead l).length := trimTrail_length_le _
    _ ≤ l.length := lengthDropWhileLe _ _

/-- The first character, if any, is not whitespace. -/
def headNotWS (l : List Char) : Prop := ∀ c t, l = c :: t → isWS c = false

lemma headNotWS_dropWhileWS (l : List Char) : headNotWS (l.dropWhile isWS) := by
  induction l with
  | nil => intro c t h; simp at h
  | cons x xs ih =>
    rw [List.dropWhile_cons]
    by_cases h : isWS x = true
    · rw [if_pos h]; exact ih
    · rw [if_neg h]
      intro c t hct
      cases hct
      simpa using h

lemma trimTrail_append_eq (l : List Char) : ∃ suf, l = trimTrail l ++ suf := by
  refine ⟨(l.reverse.takeWhile isWS).reverse, ?_⟩
  rw [trimTrail, ← List.reverse_append, List.takeWhile_append_dropWhile, List.reverse_reverse]

lemma headNotWS_trimTrail (l : List Char) (h : headNotWS l) : headNotWS (trimTrail l) := by
  intro c t hct
  obtain ⟨suf, hsuf⟩ := trimTrail_append_eq l
  rw [hct] at hsuf
  exact h c (t ++ suf) (by simpa using hsuf)

lemma headNotWS_jsTrim (l : List Char) : headNotWS (jsTrim l) :=
  headNotWS_trimTrail _ (headNotWS_dropWhileWS l)

lemma nws_take_ne (l : List Char) (n : Nat) (hl : headNotWS l) (hne : l ≠ [])
    (hn : 1 ≤ n) : nws (l.take n) ≠ [] := by
  cases l with
  | nil => exact absurd rfl hne
  | cons c t =>
    have hc := hl c t rfl
    rw [List.take_cons (by omega)]
    simp [nws, List.filter_cons, hc]

lemma jsTrim_ne_nil (x : List Char) (h : nws x ≠ []) : jsTrim x ≠ [] :=
  fun hc => h ((jsTrim_nil_iff x).mp hc)

/-! ## Sentence-split lemmas -/

/-- The sentence split only discards whitespace: the non-whitespace content
of the concatenated pieces is that of the input (with the accumulator
prepended). -/
lemma sentGo_nws (fuel : Nat) :
    ∀ (cur : List Char) (b : Bool) (rest : List Char),
      nws (sentGo fuel cur b rest).flatten = nws cur.reverse ++ nws rest := by
  induction fuel with
  | zero =>
    intro cur b rest
    simp [sentGo, nws_append]
  | succ f ih =>
    intro cur b rest
    cases rest with
    | nil => simp [sentGo, nws]
    | cons c cs =>
      rw [sentGo]
      by_cases hcond : (b && isWS c && capAfterWS (c :: cs)) = true
      · rw [if_pos hcond, List.flatten_cons, nws_append, ih, nws_dropWhileWS]
        simp [nws]
      · rw [if_neg hcond, ih, List.reverse_cons, nws_append]
        by_cases hw : isWS c = true <;>
          simp [nws, List.filter_cons, hw, List.append_assoc]

lemma splitSentences_nws (t : List Char) :
    nws (splitSentences t).flatten = nws t := by
  simpa [nws] using sentGo_nws (t.length + 1) [] false t

/-! ## Flatten helpers -/

lemma flatten_filter_ne (L : List (List Char)) :
    (L.filter (fun s => !s.isEmpty)).flatten = L.flatten := by
  induction L with
  | nil => rfl
  | cons p ps ih =>
    rw [List.filter_cons]
    by_cases hp : p.isEmpty = true
    · have hnil : p = [] := List.isEmpty_iff.mp hp
      rw [if_neg (by simp [hp]), ih, List.flatten_cons, hnil]
      rfl
    · rw [if_pos (by simp [hp]), List.flatten_cons, List.flatten_cons, ih]

lemma nws_flatten_map_jsTrim (L : List (List Char)) :
    nws ((L.map jsTrim).flatten) = nws L.flatten := by
  induction L with
  | nil => rfl
  | cons p ps ih =>
    simp only [List.map_cons, List.flatten_cons, nws_append, nws_jsTrim, ih]

lemma exists_nonws_piece (L : List (List Char)) (h : nws L.flatten ≠ []) :
    ∃ p ∈ L, nws p ≠ [] := by
  induction L with
  | nil => simp [nws] at h
  | cons p ps ih =>
    rw [List.flatten_cons, nws_append] at h
    by_cases hp : nws p = []
    · rw [hp, List.nil_append] at h
      obtain ⟨q, hq, h2⟩ := ih h
      exact ⟨q, List.mem_cons_of_mem p hq, h2⟩
    · exact ⟨p, List.mem_cons_self p ps, hp⟩

/-! ## Session-machine lemmas and claims -/

/-- Folding the chunk handler over payloads appends them to the buffer and
preserves the session id, provided a session is active and every payload is
non-empty. -/
lemma foldChunks_spec (payloads : List String) (st : SessState) (id : String)
    (hid : st.currentSessionId = some id) (h : ∀ c ∈ payloads, c ≠ "") :
    (payloads.foldl (fun st c => handleChunk (some c) st) st).audioChunks
        = st.audioChunks ++ payloads ∧
      (payloads.foldl (fun st c => handleChunk (some c) st) st).currentSessionId = some id := by
  induction payloads generalizing st with
  | nil => simp [hid]
  | cons c cs ih =>
    have hc : c ≠ "" := h c (List.mem_cons_self c cs)
    have hcs : ∀ x ∈ cs, x ≠ "" := fun x hx => h x (List.mem_cons_of_mem c hx)
    have hstep : handleChunk (some c) st =
        { st with audioChunks := st.audioChunks ++ [c] } := by
      simp [handleChunk, hid, hc]
    rw [List.foldl_cons, hstep]
    have := ih { st with audioChunks := st.audioChunks ++ [c] } (by simpa using hid) hcs
    simpa using this

/-- C1 counterexample: in the `Capturing` state (an active session, not yet
processing) a further `start` is NOT a no-op: the guard only checks
`inProgress`, so a fresh session id is installed and the chunk buffer is
cleared. -/
theorem c1_start_while_capturing_not_noop :
    handleStart "fresh" ⟨["c"], false, some "sid"⟩ ≠ ⟨["c"], false, some "sid"⟩ := by
  decide

/-- C1 (amended): a `start` received while `Processing` (`inProgress`) is a
no-op leaving the session state unchanged, but a `start` received while
`Capturing` re-initialises the session (fresh id, cleared buffer); a `chunk`
or `end` received with no active session is ignored with no state mutation
and no observable action. -/
theorem c1_session_signal_guards (s : SessState) (f : String) (p : Option String)
    (o : TurnOracle) :
    (s.inProgress = true → handleStart f s = s) ∧
    (s.inProgress = false →
      handleStart f s = ⟨[], false, some f⟩) ∧
    (s.currentSessionId = none → handleChunk p s = s) ∧
    (s.currentSessionId = none → handleEnd o s = (s, [])) := by
  refine ⟨fun h => ?_, fun h => ?_, fun h => ?_, fun h => ?_⟩
  · simp [handleStart, h]
  · simp [handleStart, h]
  · simp [handleChunk, h]
  · simp [handleEnd, h]

/-- Concrete instantiation of the amended C1 theorem. -/
theorem c1_session_signal_guards_witness :
    (handleStart "f" ⟨["c"], true, some "s"⟩ = ⟨["c"], true, some "s"⟩) ∧
    (handleChunk (some "x") ⟨[], false, none⟩ = ⟨[], false, none⟩) ∧
    (handleEnd ⟨fun _ => [], .ok [], .ok [], fun _ => .ok []⟩ ⟨[], false, none⟩
      = (⟨[], false, none⟩, [])) :=
  ⟨(c1_session_signal_guards ⟨["c"], true, some "s"⟩ "f" (some "x")
      ⟨fun _ => [], .ok [], .ok [], fun _ => .ok []⟩).1 rfl,
   (c1_session_signal_guards ⟨[], false, none⟩ "f" (some "x")
      ⟨fun _ => [], .ok [], .ok [], fun _ => .ok []⟩).2.2.1 rfl,
   (c1_session_signal_guards ⟨[], false, none⟩ "f" (some "x")
      ⟨fun _ => [], .ok [], .ok [], fun _ => .ok []⟩).2.2.2 rfl⟩

/-- C5: after a `start` and any sequence of `chunk` messages with non-empty
payloads, the session buffer holds exactly the payloads in arrival order, and
the assembled complete buffer is the byte-for-byte concatenation of their
base64 decodings in that order. -/
theorem c5_buffer_is_ordered_concat (f : String) (payloads : List String)
    (h : ∀ c ∈ payloads, c ≠ "") :
    (payloads.foldl (fun st c => handleChunk (some c) st)
        (handleStart f initSess)).audioChunks = payloads ∧
    ∀ o : TurnOracle,
      completeBufferOf o
          (payloads.foldl (fun st c => handleChunk (some c) st) (handleStart f initSess))
        = (payloads.map o.dec).flatten := by
  have hstart : handleStart f initSess = ⟨[], false, some f⟩ := by
    simp [handleStart, initSess]
  have := foldChunks_spec payloads (handleStart f initSess) f (by rw [hstart]) h
  refine ⟨by simpa [hstart] using this.1, fun o => ?_⟩
  rw [completeBufferOf, this.1, hstart]
  simp

/-- Concrete instantiation of the C5 theorem. -/
theorem c5_buffer_is_ordered_concat_witness :
    (["ab", "cd", "ef"].foldl (fun st c => handleChunk (some c) st)
        (handleStart "id" initSess)).audioChunks = ["ab", "cd", "ef"] :=
  (c5_buffer_is_ordered_concat "id" ["ab", "cd", "ef"] (by decide)).1

/-- C6: a finalized buffer under 1000 bytes never invokes the pipeline, sends
nothing to the client, and resets the session to `Idle` (buffer cleared,
session id nulled, `inProgress` cleared). -/
theorem c6_small_buffer_rejected (o : TurnOracle) (s : SessState)
    (hid : s.currentSessionId.isSome) (hip : s.inProgress = false)
    (hne : s.audioChunks ≠ []) (hsmall : (completeBufferOf o s).length < 1000) :
    handleEnd o s = (initSess, []) := by
  obtain ⟨id, hid⟩ := Option.isSome_iff_exists.mp hid
  simp [handleEnd, hid, hip, hne, hsmall, initSess]

/-- Concrete instantiation of the C6 theorem: one 3-byte chunk. -/
theorem c6_small_buffer_rejected_witness :
    handleEnd ⟨fun _ => [0, 1, 2], .ok [], .ok [], fun _ => .ok []⟩
        ⟨["abc"], false, some "sid"⟩ = (initSess, []) :=
  c6_small_buffer_rejected ⟨fun _ => [0, 1, 2], .ok [], .ok [], fun _ => .ok []⟩
    ⟨["abc"], false, some "sid"⟩ (by decide) (by decide) (by decide) (by decide)

/-! ## Playback-queue claims -/

/-- C3 counterexample: stopping while a segment is playing fires the
playback-end signal TWICE, not exactly once.  `stopPlayback` calls
`source.stop()` and fires `onPlaybackEnd` once; but `stop()` makes the
browser dispatch the still-attached `onended` callback, which runs
`processNextAudio()` unconditionally on the now-empty queue and fires
`onPlaybackEnd` a second time. -/
theorem c3_counterexample :
    (stopPlayback ⟨[], true, some "a", ["a"]⟩).2
        ++ (sourceEnded okAll (stopPlayback ⟨[], true, some "a", ["a"]⟩).1).2
      = [PSig.playbackEnd, PSig.playbackEnd] := by
  decide

/-- C3 (amended): `stopPlayback` on an idle player (not playing, empty
queue, no source) is a no-op that fires no signal.  `stopPlayback` while a
segment is playing halts it, leaves the queue empty, and fires one
playback-end signal synchronously — but the stopped source's `onended`
callback, which `stop()` triggers, then runs `processNextAudio` on the
emptied queue and fires exactly one further playback-end signal, so
stop-while-playing fires the signal twice in total. -/
theorem c3_stop_playback (s : PlayerState) (seg : String) (ok : String → Bool) :
    (s.isPlaying = false → s.audioQueue = [] → s.currentSource = none →
      stopPlayback s = (s, [])) ∧
    (s.isPlaying = true → s.currentSource = some seg →
      stopPlayback s = (⟨[], false, none, s.played⟩, [PSig.playbackEnd]) ∧
      (sourceEnded ok (stopPlayback s).1).2 = [PSig.playbackEnd]) := by
  obtain ⟨q, ip, cs, pl⟩ := s
  refine ⟨fun h1 h2 h3 => ?_, fun h1 _ => ?_⟩
  · subst h1; subst h2; subst h3; simp [stopPlayback]
  · subst h1
    constructor
    · simp [stopPlayback]
    · simp [stopPlayback, sourceEnded, processNextAudio, pnaGo]

/-- Concrete instantiation of the amended C3 theorem: the idle case, and the
playing case with its post-stop `onended` re-fire. -/
theorem c3_stop_playback_witness :
    (stopPlayback ⟨[], false, none, []⟩ = (⟨[], false, none, []⟩, [])) ∧
    (stopPlayback ⟨["b"], true, some "a", ["a"]⟩
        = (⟨[], false, none, ["a"]⟩, [PSig.playbackEnd]) ∧
      (sourceEnded okAll (stopPlayback ⟨["b"], true, some "a", ["a"]⟩).1).2
        = [PSig.playbackEnd]) :=
  ⟨(c3_stop_playback ⟨[], false, none, []⟩ "a" okAll).1 rfl rfl rfl,
   (c3_stop_playback ⟨["b"], true, some "a", ["a"]⟩ "a" okAll).2 rfl rfl⟩

/-- One playback event keeps `played ++ audioQueue` equal to the enqueue log
(all decodes succeeding). -/
lemma pstep_trace (s : PlayerState) (e : PEvent) :
    (pstep okAll s e).played ++ (pstep okAll s e).audioQueue
      = s.played ++ s.audioQueue ++ enqueuedOf [e] := by
  obtain ⟨q, ip, cs, pl⟩ := s
  cases e with
  | enq b =>
    cases ip with
    | true => simp [pstep, queueAudio, enqueuedOf]
    | false =>
      cases q with
      | nil => simp [pstep, queueAudio, processNextAudio, pnaGo, okAll, enqueuedOf]
      | cons h t => simp [pstep, queueAudio, processNextAudio, pnaGo, okAll, enqueuedOf]
  | ended =>
    cases q with
    | nil => simp [pstep, sourceEnded, processNextAudio, pnaGo, enqueuedOf]
    | cons h t => simp [pstep, sourceEnded, processNextAudio, pnaGo, okAll, enqueuedOf]

/-- C9: the playback queue is FIFO.  For every interleaving of arrivals and
natural completions (with every segment decoding successfully), the log of
segments that started playing, followed by the still-queued segments, equals
the full enqueue sequence in arrival order: segments start playing in exactly
the order they were enqueued, each dequeued only when its predecessor's
source ended, regardless of when later segments arrive. -/
theorem c9_playback_fifo (evs : List PEvent) :
    (runP okAll evs).played ++ (runP okAll evs).audioQueue = enqueuedOf evs := by
  suffices h : ∀ s : PlayerState,
      (evs.foldl (pstep okAll) s).played ++ (evs.foldl (pstep okAll) s).audioQueue
        = s.played ++ s.audioQueue ++ enqueuedOf evs by
    simpa [runP, initPlayer] using h initPlayer
  induction evs with
  | nil => intro s; simp [enqueuedOf]
  | cons e rest ih =>
    intro s
    rw [List.foldl_cons, ih (pstep okAll s e)]
    have h1 := pstep_trace s e
    have h2 : enqueuedOf (e :: rest) = enqueuedOf [e] ++ enqueuedOf rest := by
      cases e <;> simp [enqueuedOf]
    rw [h2, ← List.append_assoc, h1]

/-! ## Chunker lemmas -/

lemma sentencesOf_ne (t : List Char) (h : jsTrim t ≠ []) : sentencesOf t ≠ [] := by
  have h1 : nws t ≠ [] := fun hc => h ((jsTrim_nil_iff t).mpr hc)
  have h2 : nws (splitSentences t).flatten ≠ [] := by
    rw [splitSentences_nws]; exact h1
  obtain ⟨p, hp, hnp⟩ := exists_nonws_piece _ h2
  have hne : jsTrim p ≠ [] := jsTrim_ne_nil p hnp
  intro hc
  have hmem : jsTrim p ∈ sentencesOf t := by
    rw [sentencesOf]
    exact List.mem_filter.mpr
      ⟨List.mem_map_of_mem jsTrim hp, by simpa [List.isEmpty_iff] using hne⟩
  rw [hc] at hmem
  exact absurd hmem (List.not_mem_nil _)

lemma sentencesOf_nws (t : List Char) : nws (sentencesOf t).flatten = nws t := by
  rw [sentencesOf, flatten_filter_ne, nws_flatten_map_jsTrim, splitSentences_nws]

lemma nws_glue (cur s : List Char) : nws (glue cur s) = nws cur ++ nws s := by
  rw [glue]
  by_cases h : cur.isEmpty = true
  · have : cur = [] := List.isEmpty_iff.mp h
    rw [if_pos h, this]
    rfl
  · rw [if_neg h, nws_append]
    simp [nws, List.filter_cons, isWS]

/-- The greedy grouping only regroups and trims: the non-whitespace content
of the concatenated chunks equals that of the accumulator followed by the
remaining sentences (for a non-empty sentence list). -/
lemma greedyGo_nws (max : Nat) :
    ∀ (l : List (List Char)) (cur : List Char), l ≠ [] →
      nws (greedyGo max cur l).flatten = nws cur ++ nws l.flatten := by
  intro l
  induction l with
  | nil => intro cur h; exact absurd rfl h
  | cons s ss ih =>
    intro cur _
    cases ss with
    | nil =>
      rw [greedyGo]
      by_cases hc : (max < (glue cur s).length && !cur.isEmpty) = true
      · rw [if_pos hc]
        simp only [List.flatten_cons, List.flatten_nil, List.append_nil,
          nws_append, nws_jsTrim]
      · rw [if_neg hc]
        simp only [List.flatten_cons, List.flatten_nil, List.append_nil,
          nws_jsTrim, nws_glue]
    | cons s2 ss2 =>
      rw [greedyGo]
      case x_1 => exact fun h => List.noConfusion h
      by_cases hc : (max < (glue cur s).length && !cur.isEmpty) = true
      · rw [if_pos hc, List.flatten_cons, nws_append, nws_jsTrim,
          ih s (List.cons_ne_nil s2 ss2)]
        simp only [List.flatten_cons, nws_append, List.append_assoc]
      · rw [if_neg hc, ih (glue cur s) (List.cons_ne_nil s2 ss2), nws_glue]
        simp only [List.flatten_cons, nws_append, List.append_assoc]

/-- Every chunk the greedy grouping emits is the trim of some text. -/
lemma greedyGo_trimmed (max : Nat) :
    ∀ (l : List (List Char)) (cur c : List Char), c ∈ greedyGo max cur l →
      ∃ m, c = jsTrim m := by
  intro l
  induction l with
  | nil => intro cur c hc; simp [greedyGo] at hc
  | cons s ss ih =>
    intro cur c hc
    cases ss with
    | nil =>
      rw [greedyGo] at hc
      by_cases hcond : (max < (glue cur s).length && !cur.isEmpty) = true
      · rw [if_pos hcond] at hc
        simp only [List.mem_cons, List.not_mem_nil, or_false] at hc
        rcases hc with h | h
        · exact ⟨cur, h⟩
        · exact ⟨s, h⟩
      · rw [if_neg hcond] at hc
        simp only [List.mem_cons, List.not_mem_nil, or_false] at hc
        exact ⟨glue cur s, hc⟩
    | cons s2 ss2 =>
      rw [greedyGo] at hc
      case x_1 => exact fun h => List.noConfusion h
      by_cases hcond : (max < (glue cur s).length && !cur.isEmpty) = true
      · rw [if_pos hcond] at hc
        simp only [List.mem_cons] at hc
        rcases hc with h | h
        · exact ⟨cur, h⟩
        · exact ih s c h
      · rw [if_neg hcond] at hc
        exact ih (glue cur s) c hc

/-! ## Break-point lemmas -/

lemma findSomeEqSome {α β : Type} (f : α → Option β) :
    ∀ (l : List α) (b : β), l.findSome? f = some b → ∃ a ∈ l, f a = some b := by
  intro l
  induction l with
  | nil => intro b h; simp [List.findSome?] at h
  | cons a as ih =>
    intro b h
    rw [List.findSome?_cons] at h
    cases hfa : f a with
    | some c =>
      rw [hfa] at h
      exact ⟨a, List.mem_cons_self a as, by rw [hfa]; exact h⟩
    | none =>
      rw [hfa] at h
      obtain ⟨x, hx, hfx⟩ := ih b h
      exact ⟨x, List.mem_cons_of_mem a hx, hfx⟩

lemma lastIdxFrom_le (s needle : List Char) (f bp : Nat)
    (h : lastIdxFrom s needle f = some bp) : bp ≤ f := by
  have hm : bp ∈ (List.range (f + 1)).filter (occursAt s needle) :=
    List.mem_of_mem_getLast? h
  have := List.mem_range.mp (List.mem_filter.mp hm).1
  omega

lemma findBreakPoint_spec (r : List Char) (max bp : Nat)
    (h : findBreakPoint r max = some bp) : bp ≤ max ∧ max < 2 * bp := by
  rw [findBreakPoint] at h
  obtain ⟨a, ha, hfa⟩ := findSomeEqSome _ _ bp h
  cases a with
  | none => simp at hfa
  | some bp' =>
    have hfa' : (if max < 2 * bp' then (some bp' : Option Nat) else none) = some bp := hfa
    by_cases hlt : max < 2 * bp'
    · rw [if_pos hlt] at hfa'
      have hbp : bp' = bp := by simpa using hfa'
      subst hbp
      refine ⟨?_, hlt⟩
      simp only [List.mem_cons, List.not_mem_nil, or_false] at ha
      rcases ha with h1 | h1 | h1 | h1 | h1 | h1 <;>
        exact lastIdxFrom_le r _ max bp' h1.symm
    · rw [if_neg hlt] at hfa'
      simp at hfa'

/-! ## `splitLongChunk` lemmas -/

/-- The forced splitter only cuts and trims: non-whitespace content is
preserved. -/
lemma splitLongChunkF_nws (max : Nat) (hmax : 1 ≤ max) :
    ∀ (fuel : Nat) (r : List Char), r.length < fuel →
      nws (splitLongChunkF max fuel r).flatten = nws r := by
  intro fuel
  induction fuel with
  | zero => intro r h; omega
  | succ f ih =>
    intro r hr
    rw [splitLongChunkF]
    by_cases hle : r.length ≤ max
    · rw [if_pos hle]
      by_cases hE : r.isEmpty = true
      · rw [if_pos hE, List.isEmpty_iff.mp hE]
        rfl
      · rw [if_neg hE]
        simp [nws]
    · rw [if_neg hle]
      cases hfb : findBreakPoint r max with
      | some bp =>
        dsimp only
        obtain ⟨hble, hbgt⟩ := findBreakPoint_spec r max bp hfb
        have hbp : 0 < bp := by omega
        have harg : (jsTrim (r.drop (bp + 1))).length < f := by
          have h1 := jsTrim_length_le (r.drop (bp + 1))
          have h2 := List.length_drop (bp + 1) r
          omega
        rw [if_pos hbp, List.flatten_cons, nws_append, nws_jsTrim, ih _ harg,
          nws_jsTrim, ← nws_append, List.take_append_drop]
      | none =>
        dsimp only
        have harg : (jsTrim (r.drop max)).length < f := by
          have h1 := jsTrim_length_le (r.drop max)
          have h2 := List.length_drop max r
          omega
        rw [List.flatten_cons, nws_append, nws_jsTrim, ih _ harg,
          nws_jsTrim, ← nws_append, List.take_append_drop]

/-- Every chunk the forced splitter emits has length at most `max + 1` (the
`max + 1` is reached only through a `", "` break located exactly at index
`max`, whose kept comma makes the piece one character longer than `max`). -/
lemma splitLongChunkF_len (max : Nat) (hmax : 1 ≤ max) :
    ∀ (fuel : Nat) (r : List Char), r.length < fuel →
      ∀ c ∈ splitLongChunkF max fuel r, c.length ≤ max + 1 := by
  intro fuel
  induction fuel with
  | zero => intro r h; omega
  | succ f ih =>
    intro r hr c hc
    rw [splitLongChunkF] at hc
    by_cases hle : r.length ≤ max
    · rw [if_pos hle] at hc
      by_cases hE : r.isEmpty = true
      · rw [if_pos hE] at hc
        simp at hc
      · rw [if_neg hE] at hc
        simp only [List.mem_cons, List.not_mem_nil, or_false] at hc
        subst hc
        omega
    · rw [if_neg hle] at hc
      cases hfb : findBreakPoint r max with
      | some bp =>
        rw [hfb] at hc
        dsimp only at hc
        obtain ⟨hble, hbgt⟩ := findBreakPoint_spec r max bp hfb
        have hbp : 0 < bp := by omega
        rw [if_pos hbp] at hc
        simp only [List.mem_cons] at hc
        rcases hc with h | h
        · subst h
          have h1 := jsTrim_length_le (r.take (bp + 1))
          have h2 := List.length_take (bp + 1) r
          have h3 : (r.take (bp + 1)).length ≤ bp + 1 := by
            rw [h2]; exact min_le_left _ _
          omega
        · have harg : (jsTrim (r.drop (bp + 1))).length < f := by
            have h1 := jsTrim_length_le (r.drop (bp + 1))
            have h2 := List.length_drop (bp + 1) r
            omega
          exact ih _ harg c h
      | none =>
        rw [hfb] at hc
        dsimp only at hc
        simp only [List.mem_cons] at hc
        rcases hc with h | h
        · subst h
          have h1 := jsTrim_length_le (r.take max)
          have h2 := List.length_take max r
          have h3 : (r.take max).length ≤ max := by
            rw [h2]; exact min_le_left _ _
          omega
        · have harg : (jsTrim (r.drop max)).length < f := by
            have h1 := jsTrim_length_le (r.drop max)
            have h2 := List.length_drop max r
            omega
          exact ih _ harg c h

/-- On input with no leading whitespace, the forced splitter emits no empty
chunk. -/
lemma splitLongChunkF_ne (max : Nat) (hmax : 1 ≤ max) :
    ∀ (fuel : Nat) (r : List Char), r.length < fuel → headNotWS r →
      ∀ c ∈ splitLongChunkF max fuel r, c ≠ [] := by
  intro fuel
  induction fuel with
  | zero => intro r h; omega
  | succ f ih =>
    intro r hr hh c hc
    rw [splitLongChunkF] at hc
    by_cases hle : r.length ≤ max
    · rw [if_pos hle] at hc
      by_cases hE : r.isEmpty = true
      · rw [if_pos hE] at hc
        simp at hc
      · rw [if_neg hE] at hc
        simp only [List.mem_cons, List.not_mem_nil, or_false] at hc
        subst hc
        simpa [List.isEmpty_iff] using hE
    · have hrne : r ≠ [] := by
        intro h0
        rw [h0] at hle
        simp at hle
      rw [if_neg hle] at hc
      cases hfb : findBreakPoint r max with
      | some bp =>
        rw [hfb] at hc
        dsimp only at hc
        obtain ⟨hble, hbgt⟩ := findBreakPoint_spec r max bp hfb
        have hbp : 0 < bp := by omega
        rw [if_pos hbp] at hc
        simp only [List.mem_cons] at hc
        rcases hc with h | h
        · subst h
          exact jsTrim_ne_nil _ (nws_take_ne r (bp + 1) hh hrne (by omega))
        · have harg : (jsTrim (r.drop (bp + 1))).length < f := by
            have h1 := jsTrim_length_le (r.drop (bp + 1))
            have h2 := List.length_drop (bp + 1) r
            omega
          exact ih _ harg (headNotWS_jsTrim _) c h
      | none =>
        rw [hfb] at hc
        dsimp only at hc
        simp only [List.mem_cons] at hc
        rcases hc with h | h
        · subst h
          exact jsTrim_ne_nil _ (nws_take_ne r max hh hrne hmax)
        · have harg : (jsTrim (r.drop max)).length < f := by
            have h1 := jsTrim_length_le (r.drop max)
            have h2 := List.length_drop max r
            omega
          exact ih _ harg (headNotWS_jsTrim _) c h

/-- The final flat-mapping step of the chunker preserves non-whitespace
content. -/
lemma flatMap_split_nws (max : Nat) (hmax : 1 ≤ max) (L : List (List Char)) :
    nws ((L.flatMap
        (fun c => if max < c.length then splitLongChunk c max else [c])).flatten)
      = nws L.flatten := by
  induction L with
  | nil => rfl
  | cons a as ih =>
    rw [List.flatMap_cons, List.flatten_append, nws_append, ih,
      List.flatten_cons, nws_append]
    by_cases hl : max < a.length
    · rw [if_pos hl, splitLongChunk, splitLongChunkF_nws max hmax _ a (by omega)]
    · rw [if_neg hl]
      simp [nws]

/-! ## Chunker claims (C2, C4) -/

/-- The input on which the chunker exceeds the configured maximum: fifty
`a`s followed by `", b"`, so that `", "` starts exactly at index 50. -/
def c2CexText : List Char := List.replicate 50 'a' ++ ", b".toList

/-- C2 counterexample: with the default maximum length 50, the chunker emits
a segment of length 51 (fifty `a`s plus the kept comma): `splitLongChunk`
keeps the comma of a `", "` break found exactly at index `maxLength`,
producing `maxLength + 1` characters after trimming. -/
theorem c2_counterexample :
    ∃ c ∈ createOptimalTTSChunks c2CexText 50, 50 < c.length := by
  decide

/-- C2 (amended): for every input text and every positive configured maximum
`max` (default 50), every segment produced by `createOptimalTTSChunks`
(including the `splitLongChunk` forced-fallback path) has length at most
`max + 1`; the bound `max` itself can be exceeded by exactly one character
when a `", "` break sits at index `max`. -/
theorem c2_segment_length_bound (t : List Char) (max : Nat) (hmax : 1 ≤ max) :
    ∀ c ∈ createOptimalTTSChunks t max, c.length ≤ max + 1 := by
  intro c hc
  rw [createOptimalTTSChunks] at hc
  by_cases hE : (jsTrim t).isEmpty = true
  · rw [if_pos hE] at hc
    simp at hc
  · rw [if_neg hE] at hc
    have hsne : sentencesOf t ≠ [] :=
      sentencesOf_ne t (by simpa [List.isEmpty_iff] using hE)
    rw [if_neg (by simpa [List.isEmpty_iff] using hsne)] at hc
    obtain ⟨a, _, hca⟩ := List.mem_flatMap.mp hc
    by_cases hlong : max < a.length
    · rw [if_pos hlong, splitLongChunk] at hca
      exact splitLongChunkF_len max hmax _ a (by omega) c hca
    · rw [if_neg hlong] at hca
      simp only [List.mem_cons, List.not_mem_nil, or_false] at hca
      subst hca
      omega

/-- Concrete instantiation of the amended C2 theorem. -/
theorem c2_segment_length_bound_witness :
    1 ≤ 50 ∧ ∀ c ∈ createOptimalTTSChunks c2CexText 50, c.length ≤ 50 + 1 :=
  ⟨by decide, c2_segment_length_bound c2CexText 50 (by decide)⟩

/-- C4: the chunker's output segments, concatenated in order, reproduce the
original reply text up to whitespace: deleting whitespace from the
concatenation yields exactly the non-whitespace characters of the original
in order (this whitespace-insensitive equality is the formalization of
"concatenating with whitespace collapsed/normalized reproduces the trimmed
original": the sentence split consumes inter-sentence whitespace, the greedy
regrouping re-joins sentences with single spaces, and the forced split cuts
without inserting anything, so only whitespace placement can differ); and no
output segment is the empty string. -/
theorem c4_concat_reproduces_text (t : List Char) (max : Nat) (hmax : 1 ≤ max) :
    nws (createOptimalTTSChunks t max).flatten = nws t ∧
    ∀ c ∈ createOptimalTTSChunks t max, c ≠ [] := by
  constructor
  · rw [createOptimalTTSChunks]
    by_cases hE : (jsTrim t).isEmpty = true
    · rw [if_pos hE]
      have h0 : nws t = [] := (jsTrim_nil_iff t).mp (List.isEmpty_iff.mp hE)
      rw [h0]
      rfl
    · rw [if_neg hE]
      have hsne : sentencesOf t ≠ [] :=
        sentencesOf_ne t (by simpa [List.isEmpty_iff] using hE)
      rw [if_neg (by simpa [List.isEmpty_iff] using hsne)]
      rw [flatMap_split_nws max hmax, flatten_filter_ne,
        greedyGo_nws max (sentencesOf t) [] hsne, sentencesOf_nws]
      rfl
  · intro c hc
    rw [createOptimalTTSChunks] at hc
    by_cases hE : (jsTrim t).isEmpty = true
    · rw [if_pos hE] at hc
      simp at hc
    · rw [if_neg hE] at hc
      have hsne : sentencesOf t ≠ [] :=
        sentencesOf_ne t (by simpa [List.isEmpty_iff] using hE)
      rw [if_neg (by simpa [List.isEmpty_iff] using hsne)] at hc
      obtain ⟨a, ha, hca⟩ := List.mem_flatMap.mp hc
      have hane : a ≠ [] := by
        have := (List.mem_filter.mp ha).2
        simpa [List.isEmpty_iff] using this
      have hat : ∃ m, a = jsTrim m :=
        greedyGo_trimmed max (sentencesOf t) [] a (List.mem_filter.mp ha).1
      by_cases hlong : max < a.length
      · rw [if_pos hlong, splitLongChunk] at hca
        obtain ⟨m, hm⟩ := hat
        have hh : headNotWS a := by
          rw [hm]; exact headNotWS_jsTrim m
        exact splitLongChunkF_ne max hmax _ a (by omega) hh c hca
      · rw [if_neg hlong] at hca
        simp only [List.mem_cons, List.not_mem_nil, or_false] at hca
        subst hca
        exact hane

/-- Concrete instantiation of the C4 theorem. -/
theorem c4_concat_reproduces_text_witness :
    nws (createOptimalTTSChunks "Hello there. This is a test.".toList 50).flatten
        = nws "Hello there. This is a test.".toList ∧
    ∀ c ∈ createOptimalTTSChunks "Hello there. This is a test.".toList 50, c ≠ [] :=
  c4_concat_reproduces_text "Hello there. This is a test.".toList 50 (by decide)

/-- The audio buffer a successful synthesis call returns for a segment. -/
def ttsAudio (o : TurnOracle) (seg : List Char) : List Nat :=
  match o.ttsO seg with
  | .ok a => a
  | .error _ => []

/-- When every synthesis call succeeds, the synthesis loop emits, per segment
in order, its synthesis call followed by one `ai_audio` message whose `done`
flag is set exactly on the last segment, and no pending exception. -/
lemma ttsLoop_all_ok (o : TurnOracle) (segs : List (List Char)) (k : Nat)
    (h : ∀ seg ∈ segs, ∃ a, o.ttsO seg = .ok a) :
    ttsLoop o segs =
      ((segs.enumFrom k).flatMap fun p =>
        [TurnEv.ttsCall p.2,
         TurnEv.aiAudio (ttsAudio o p.2) (decide (p.1 + 1 = k + segs.length))],
       none) := by
  induction segs generalizing k with
  | nil => simp [ttsLoop]
  | cons seg rest ih =>
    obtain ⟨a, ha⟩ := h seg (List.mem_cons_self seg rest)
    have hrest : ∀ x ∈ rest, ∃ b, o.ttsO x = .ok b :=
      fun x hx => h x (List.mem_cons_of_mem seg hx)
    have hdone : rest.isEmpty = decide (k + 1 = k + (rest.length + 1)) := by
      cases rest with
      | nil => simp
      | cons r rs => simp
    rw [ttsLoop, ha]
    simp only [ih (k + 1) hrest, List.enumFrom_cons, List.flatMap_cons]
    simp [ttsAudio, ha, hdone, Nat.add_assoc, Nat.add_comm 1]

/-- C7: entering a `Processing` turn (active session, not already in
progress), the session is reset to `Idle` on every exit path; and whenever a
pipeline stage fails — transcription, generation, or any synthesis call — a
structured `error` message carrying that stage's failure description is sent
to the client. -/
theorem c7_pipeline_errors_reported_and_reset (o : TurnOracle) (s : SessState)
    (hid : s.currentSessionId.isSome) (hip : s.inProgress = false) :
    (handleEnd o s).1 = initSess ∧
    (1000 ≤ (completeBufferOf o s).length → s.audioChunks ≠ [] →
      (∀ e, o.transcribeO = .error e → TurnEv.errMsg e ∈ (handleEnd o s).2) ∧
      (∀ t e, o.transcribeO = .ok t → o.chatO = .error e →
        TurnEv.errMsg e ∈ (handleEnd o s).2) ∧
      (∀ t ds e, o.transcribeO = .ok t → o.chatO = .ok ds →
        (ttsLoop o (createOptimalTTSChunks ds.flatten 50)).2 = some e →
        TurnEv.errMsg e ∈ (handleEnd o s).2)) := by
  obtain ⟨id, hid⟩ := Option.isSome_iff_exists.mp hid
  constructor
  · by_cases hA : s.audioChunks.isEmpty
    · have : s.audioChunks = [] := List.isEmpty_iff.mp hA
      simp [handleEnd, hid, hip, hA, this, initSess]
    · simp [handleEnd, hid, hip, hA, initSess]
  · intro hbig hne
    have hA : s.audioChunks.isEmpty = false := by
      simpa [List.isEmpty_iff] using hne
    have hsm : ¬ (completeBufferOf o s).length < 1000 := Nat.not_lt.mpr hbig
    refine ⟨fun e he => ?_, fun t e ht he => ?_, fun t ds e ht hd htts => ?_⟩
    · simp [handleEnd, hid, hip, hA, hsm, he]
    · simp [handleEnd, hid, hip, hA, hsm, ht, he]
    · rcases hEq : ttsLoop o (createOptimalTTSChunks ds.flatten 50) with ⟨tevs, r⟩
      rw [hEq] at htts
      subst htts
      simp [handleEnd, hid, hip, hA, hsm, ht, hd, hEq]

/-- Concrete instantiation of the C7 theorem: a failing transcription is
reported and the session is reset. -/
theorem c7_pipeline_errors_reported_and_reset_witness :
    (handleEnd ⟨fun _ => List.replicate 1000 0, .error "boom", .ok [], fun _ => .ok []⟩
        ⟨["x"], false, some "sid"⟩).1 = initSess ∧
    TurnEv.errMsg "boom" ∈
      (handleEnd ⟨fun _ => List.replicate 1000 0, .error "boom", .ok [], fun _ => .ok []⟩
        ⟨["x"], false, some "sid"⟩).2 :=
  ⟨(c7_pipeline_errors_reported_and_reset
      ⟨fun _ => List.replicate 1000 0, .error "boom", .ok [], fun _ => .ok []⟩
      ⟨["x"], false, some "sid"⟩ (by decide) (by decide)).1,
   (((c7_pipeline_errors_reported_and_reset
      ⟨fun _ => List.replicate 1000 0, .error "boom", .ok [], fun _ => .ok []⟩
      ⟨["x"], false, some "sid"⟩ (by decide) (by decide)).2
      (by decide) (by decide)).1 "boom" rfl)⟩

/-- C8: in a successful turn, the handler's trace after the transcription and
generation calls is, for each TTS segment in order, its synthesis call
immediately followed by its single `ai_audio` message; the `done` flag is
true exactly on the final segment's message, and segment `i`'s synthesis
completes (its message is sent) before segment `i+1`'s synthesis call is
issued. -/
theorem c8_one_ai_audio_per_segment_in_order (o : TurnOracle) (s : SessState)
    (hid : s.currentSessionId.isSome) (hip : s.inProgress = false)
    (hne : s.audioChunks ≠ []) (hbig : 1000 ≤ (completeBufferOf o s).length)
    (t : List Char) (ht : o.transcribeO = .ok t)
    (ds : List (List Char)) (hd : o.chatO = .ok ds)
    (hok : ∀ seg ∈ createOptimalTTSChunks ds.flatten 50, ∃ a, o.ttsO seg = .ok a) :
    (handleEnd o s).2 =
      TurnEv.wroteFile (completeBufferOf o s) :: TurnEv.transcribeCall ::
        TurnEv.chatCall t ::
        ((createOptimalTTSChunks ds.flatten 50).enum.flatMap fun p =>
          [TurnEv.ttsCall p.2,
           TurnEv.aiAudio (ttsAudio o p.2)
             (decide (p.1 + 1 = (createOptimalTTSChunks ds.flatten 50).length))]) := by
  obtain ⟨id, hid⟩ := Option.isSome_iff_exists.mp hid
  have hA : s.audioChunks.isEmpty = false := by
    simpa [List.isEmpty_iff] using hne
  have hsm : ¬ (completeBufferOf o s).length < 1000 := Nat.not_lt.mpr hbig
  have hloop := ttsLoop_all_ok o (createOptimalTTSChunks ds.flatten 50) 0 hok
  simp [handleEnd, hid, hip, hA, hsm, ht, hd, hloop, List.enum]

/-- Concrete instantiation of the C8 theorem: reply `"Hi."` yields one
segment, hence one synthesis call and one `ai_audio` message with
`done = true`. -/
theorem c8_one_ai_audio_per_segment_in_order_witness :
    (handleEnd
        ⟨fun _ => List.replicate 1000 0, .ok "hi".toList, .ok ["Hi.".toList],
         fun _ => .ok [7]⟩
        ⟨["x"], false, some "sid"⟩).2 =
      [TurnEv.wroteFile (List.replicate 1000 0), TurnEv.transcribeCall,
       TurnEv.chatCall "hi".toList, TurnEv.ttsCall "Hi.".toList,
       TurnEv.aiAudio [7] true] := by
  have h := c8_one_ai_audio_per_segment_in_order
    ⟨fun _ => List.replicate 1000 0, .ok "hi".toList, .ok ["Hi.".toList],
     fun _ => .ok [7]⟩
    ⟨["x"], false, some "sid"⟩ (by decide) (by decide) (by decide) (by decide)
    "hi".toList rfl ["Hi.".toList] rfl (fun seg _ => ⟨[7], rfl⟩)
  rw [h]
  decide

/-- An empty or whitespace-only input makes the chunker return the empty
sequence (the guard `!text || text.trim().length === 0`). -/
lemma createOptimalTTSChunks_ws_empty (x : List Char) (m : Nat)
    (h : jsTrim x = []) : createOptimalTTSChunks x m = [] := by
  simp [createOptimalTTSChunks, h]

/-- C10: when the accumulated reply text is empty or whitespace-only, the
chunker returns the empty sequence, the server sends zero `ai_audio`
messages for the turn (in particular no message with `done = true`), and the
session still resets to `Idle`. -/
theorem c10_empty_reply_no_audio (o : TurnOracle) (s : SessState)
    (hid : s.currentSessionId.isSome) (hip : s.inProgress = false)
    (hne : s.audioChunks ≠ []) (hbig : 1000 ≤ (completeBufferOf o s).length)
    (t : List Char) (ht : o.transcribeO = .ok t)
    (ds : List (List Char)) (hd : o.chatO = .ok ds)
    (hws : jsTrim ds.flatten = []) :
    createOptimalTTSChunks ds.flatten 50 = [] ∧
    (handleEnd o s).1 = initSess ∧
    (handleEnd o s).2 =
      [TurnEv.wroteFile (completeBufferOf o s), TurnEv.transcribeCall,
       TurnEv.chatCall t] ∧
    ∀ a d, TurnEv.aiAudio a d ∉ (handleEnd o s).2 := by
  obtain ⟨id, hid⟩ := Option.isSome_iff_exists.mp hid
  have hA : s.audioChunks.isEmpty = false := by
    simpa [List.isEmpty_iff] using hne
  have hsm : ¬ (completeBufferOf o s).length < 1000 := Nat.not_lt.mpr hbig
  have hch := createOptimalTTSChunks_ws_empty ds.flatten 50 hws
  have hevs : (handleEnd o s).2 =
      [TurnEv.wroteFile (completeBufferOf o s), TurnEv.transcribeCall,
       TurnEv.chatCall t] := by
    simp [handleEnd, hid, hip, hA, hsm, ht, hd, hch, ttsLoop]
  refine ⟨hch, ?_, hevs, ?_⟩
  · simp [handleEnd, hid, hip, hA, initSess]
  · intro a d
    rw [hevs]
    simp

/-- Concrete instantiation of the C10 theorem: a whitespace-only reply. -/
theorem c10_empty_reply_no_audio_witness :
    createOptimalTTSChunks "  ".toList 50 = [] ∧
    (handleEnd ⟨fun _ => List.replicate 1000 0, .ok "hi".toList, .ok ["  ".toList],
        fun _ => .ok []⟩ ⟨["x"], false, some "sid"⟩).1 = initSess := by
  have h := c10_empty_reply_no_audio
    ⟨fun _ => List.replicate 1000 0, .ok "hi".toList, .ok ["  ".toList], fun _ => .ok []⟩
    ⟨["x"], false, some "sid"⟩ (by decide) (by decide) (by decide) (by decide)
    "hi".toList rfl ["  ".toList] rfl (by decide)
  exact ⟨by simpa using h.1, h.2.1⟩

end VoiceAgent
